import Mathlib

/-!
Verification of the risk-adjusted yield ranking and rebalance decision
engine of the agent-yield-router repository.

The TypeScript source is shallowly embedded below.  JavaScript numbers are
modelled by the rationals; division is Lean total division (x / 0 = 0),
and every theorem that depends on a quotient carries hypotheses ruling the
zero denominator out, except where a zero denominator is exactly the point
being analysed.  JavaScript Maps are modelled as insertion-ordered
association lists, with set replacing an existing key in place and
appending a fresh key, as the Map specification requires.  The transcendental
Math.log10 is a parameter of the risk scorer, since no claim depends on its
values.  Template-literal reason strings are modelled by an inductive type
with one constructor per construction site, carrying the interpolated
numbers.
-/

namespace YieldRouter

/-- The result of applying the JavaScript or-else idiom x || d to an
optional number x: undefined and 0 are falsy, so both fall back to d. -/
def jsOr : Option ℚ → ℚ → ℚ
  | none, d => d
  | some v, d => if v = 0 then d else v

/-- Lookup in an insertion-ordered association list, the model of
JavaScript Map.get (none models undefined). -/
def getVal : List (String × ℚ) → String → Option ℚ
  | [], _ => none
  | (k', v) :: rest, k => if k' = k then some v else getVal rest k

/-- JavaScript Map.set on the association-list model: replace the first
binding of the key in place, or append a fresh binding at the end. -/
def mapSet : List (String × ℚ) → String → ℚ → List (String × ℚ)
  | [], k, v => [(k, v)]
  | (k', v') :: rest, k, v =>
    if k' = k then (k, v) :: rest else (k', v') :: mapSet rest k v

/-- Math.round(x * 10) / 10 from the risk scorer, with Math.round being
floor(x + 1/2). -/
def roundTenth (x : ℚ) : ℚ := ((⌊x * 10 + 1 / 2⌋ : ℤ) : ℚ) / 10

/-- The fields of a ProtocolAPY record (src types) that the scoring and
ranking pipeline reads: protocol id, total APY (as a fraction) and TVL in
USD. -/
structure ProtocolRecord where
  protocol : String
  totalAPY : ℚ
  tvl : ℚ
deriving DecidableEq, Repr

/-- A RiskScore record: per-component sub-scores plus the total
(apy-monitor source, calculateRiskScores). -/
structure ScoreRecord where
  protocol : String
  tvlScore : ℚ
  auditScore : ℚ
  ageScore : ℚ
  exploitScore : ℚ
  totalScore : ℚ
deriving DecidableEq, Repr

/-- The riskBase column of the PROTOCOL_CONFIG table in the APY monitor
source; none models a protocol id with no configuration entry. -/
def protocolConfigRiskBase (p : String) : Option ℚ :=
  if p = "kamino" then some 88
  else if p = "save" then some 72
  else if p = "loopscale" then some 75
  else if p = "drift" then some 82
  else if p = "jito" then some 90
  else if p = "jupiter" then some 88
  else if p = "marinade" then some 85
  else none

/-- calculateRiskScores from the APY monitor source.  A record whose
protocol is not in PROTOCOL_CONFIG gets the neutral default record with
total 50; otherwise the four capped sub-scores are computed, with
Math.log10 abstracted as the lg parameter. -/
def calculateRiskScores (lg : ℚ → ℚ) (apys : List ProtocolRecord) :
    List ScoreRecord :=
  apys.map fun apy =>
    match protocolConfigRiskBase apy.protocol with
    | none =>
      { protocol := apy.protocol, tvlScore := 0, auditScore := 0,
        ageScore := 0, exploitScore := 0, totalScore := 50 }
    | some riskBase =>
      let tvlScore := min 25 (lg (max 1 (apy.tvl / 1000000)) * 8)
      let auditScore := (riskBase / 100) * 25
      let ageScore : ℚ := 20
      let exploitPenalty : ℚ := if riskBase < 80 then 8 else 0
      let exploitScore := 25 - exploitPenalty
      { protocol := apy.protocol, tvlScore := roundTenth tvlScore,
        auditScore := roundTenth auditScore, ageScore := ageScore,
        exploitScore := exploitScore,
        totalScore :=
          roundTenth (tvlScore + auditScore + ageScore + exploitScore) }

/-- The record built per input row by rankOpportunities. -/
structure Opportunity where
  protocol : String
  totalAPY : ℚ
  riskScore : ℚ
  riskAdjustedAPY : ℚ
deriving DecidableEq, Repr

/-- The map step of rankOpportunities: look the protocol up among the risk
scores, default the score to 50 via the or-else idiom when the lookup
fails or yields 0, and compute the risk-adjusted APY. -/
def toOpportunity (risks : List ScoreRecord) (apy : ProtocolRecord) :
    Opportunity :=
  let riskScore :=
    jsOr ((risks.find? fun r => r.protocol == apy.protocol).map
      (fun r => r.totalScore)) 50
  { protocol := apy.protocol, totalAPY := apy.totalAPY,
    riskScore := riskScore,
    riskAdjustedAPY := apy.totalAPY * (riskScore / 100) }

/-- Insert one element into a list already sorted by descending
risk-adjusted APY, passing every element that is strictly larger and
stopping in front of the first one that is not.  Equal keys therefore end
up behind elements inserted later, which is exactly the stable order. -/
def insertDesc (x : Opportunity) : List Opportunity → List Opportunity
  | [] => [x]
  | y :: ys =>
    if x.riskAdjustedAPY < y.riskAdjustedAPY then y :: insertDesc x ys
    else x :: y :: ys

/-- Stable sort by descending risk-adjusted APY.  The JavaScript source
sorts with the comparator (a, b) => b.riskAdjustedAPY - a.riskAdjustedAPY
and Array.prototype.sort is required to be stable, so its result is the
unique permutation that is descending in the key and keeps equal keys in
input order; this insertion sort produces that same permutation. -/
def sortDesc : List Opportunity → List Opportunity
  | [] => []
  | x :: xs => insertDesc x (sortDesc xs)

/-- rankOpportunities from the APY monitor source: map each record to an
Opportunity, discard those whose (defaulted) risk score is below the
minimum, and stable-sort the rest by descending risk-adjusted APY. -/
def rankOpportunities (apys : List ProtocolRecord)
    (risks : List ScoreRecord) (minRiskScore : ℚ) : List Opportunity :=
  sortDesc (((apys.map (toOpportunity risks)).filter
    fun r => minRiskScore ≤ r.riskScore))

/-- The configuration fields of AgentConfig that the strategy brain reads.
Times are in seconds, weights and APYs are fractions, gas in USD. -/
structure AgentConfig where
  minRiskScore : ℚ
  minProtocolsForDiversity : ℕ
  maxAllocationPerProtocol : ℚ
  minTimeBetweenRebalances : ℚ
  minAPYDifferenceToRebalance : ℚ
  maxGasCostForRebalance : ℚ
deriving Repr

/-- The selection step of calculateOptimalAllocation:
ranked.slice(0, Math.max(minProtocolsForDiversity, ranked.length)). -/
def protocolsToUse (cfg : AgentConfig) (ranked : List Opportunity) :
    List Opportunity :=
  ranked.take (max cfg.minProtocolsForDiversity ranked.length)

/-- totalWeight in calculateOptimalAllocation: the sum of the selected
risk-adjusted APYs (reduce with + and initial value 0). -/
def allocTotalWeight (cfg : AgentConfig) (ranked : List Opportunity) : ℚ :=
  ((protocolsToUse cfg ranked).map fun p => p.riskAdjustedAPY).sum

/-- The first loop of calculateOptimalAllocation: fill the allocation map
with each selected protocol mapped to
min(riskAdjustedAPY / totalWeight, maxAllocationPerProtocol). -/
def allocRaw (cfg : AgentConfig) (ranked : List Opportunity) :
    List (String × ℚ) :=
  (protocolsToUse cfg ranked).foldl
    (fun m p =>
      mapSet m p.protocol
        (min (p.riskAdjustedAPY / allocTotalWeight cfg ranked)
          cfg.maxAllocationPerProtocol))
    []

/-- totalAllocation in calculateOptimalAllocation: the sum of the capped
weights currently in the map. -/
def allocTotalAllocation (cfg : AgentConfig) (ranked : List Opportunity) :
    ℚ :=
  ((allocRaw cfg ranked).map fun kv => kv.2).sum

/-- StrategyBrain.calculateOptimalAllocation: select, weight by
risk-adjusted APY share, cap each weight, then renormalize every entry of
the map by the sum of the capped weights. -/
def calculateOptimalAllocation (cfg : AgentConfig)
    (ranked : List Opportunity) : List (String × ℚ) :=
  (allocRaw cfg ranked).map fun kv =>
    (kv.1, kv.2 / allocTotalAllocation cfg ranked)

/-- The loop body of the diff step of
StrategyBrain.calculateRequiredChanges: given the (decreases, increases)
lists accumulated so far and one target-map entry, compute
diff = optimalWeight - (current.get(p) || 0) and push a protocol needing
more than a 1 percent decrease onto the decreases list and one needing
more than a 1 percent increase onto the increases list, amounts scaled by
the total value. -/
def diffBody (current : List (String × ℚ)) (totalValue : ℚ)
    (acc : List (String × ℚ) × List (String × ℚ)) (pw : String × ℚ) :
    List (String × ℚ) × List (String × ℚ) :=
  let diff := pw.2 - jsOr (getVal current pw.1) 0
  if diff < -(1 / 100) then
    (acc.1 ++ [(pw.1, |diff| * totalValue)], acc.2)
  else if 1 / 100 < diff then
    (acc.1, acc.2 ++ [(pw.1, diff * totalValue)])
  else acc

/-- The diff step of StrategyBrain.calculateRequiredChanges: fold the
loop body over the optimal (target) map starting from two empty lists.
The loop of the source iterates over the optimal map only, so this is
where protocols absent from the target can never become sources. -/
def diffStep (current optimal : List (String × ℚ)) (totalValue : ℚ) :
    List (String × ℚ) × List (String × ℚ) :=
  optimal.foldl (diffBody current totalValue) ([], [])

/-- One proposed transfer: source protocol, destination protocol and the
amount moved (the source pushes the same amount on both sides). -/
structure Transfer where
  fromProtocol : String
  toProtocol : String
  amount : ℚ
deriving DecidableEq, Repr

/-- The greedy two-pointer matching loop of calculateRequiredChanges.
Each iteration moves min(remaining source, remaining destination), records
the transfer, subtracts the amount on both sides, and advances past any
side whose remainder fell below 0.01.  Besides the transfer list the model
returns the final contents of both arrays (head amounts updated, consumed
entries kept with their final remainders), which the source keeps in the
mutated decreases and increases arrays. -/
def matchLoop : List (String × ℚ) → List (String × ℚ) →
    List Transfer × List (String × ℚ) × List (String × ℚ)
  | [], is => ([], [], is)
  | d :: ds, [] => ([], d :: ds, [])
  | d :: ds, i :: is =>
    let m := min d.2 i.2
    if d.2 - m < 1 / 100 then
      if i.2 - m < 1 / 100 then
        let r := matchLoop ds is
        (⟨d.1, i.1, m⟩ :: r.1, (d.1, d.2 - m) :: r.2.1,
          (i.1, i.2 - m) :: r.2.2)
      else
        let r := matchLoop ds ((i.1, i.2 - m) :: is)
        (⟨d.1, i.1, m⟩ :: r.1, (d.1, d.2 - m) :: r.2.1, r.2.2)
    else
      let r := matchLoop ((d.1, d.2 - m) :: ds) is
      (⟨d.1, i.1, m⟩ :: r.1, r.2.1, (i.1, i.2 - m) :: r.2.2)
termination_by ds is => ds.length + is.length
decreasing_by all_goals simp_arith

/-- StrategyBrain.calculateRequiredChanges: diff the current allocation
against the optimal one, then greedily match decreases to increases. -/
def calculateRequiredChanges (current optimal : List (String × ℚ))
    (totalValue : ℚ) : List Transfer :=
  (matchLoop (diffStep current optimal totalValue).1
    (diffStep current optimal totalValue).2).1

/-- The sum of the amounts of a transfer list. -/
def totalMoved (cs : List Transfer) : ℚ := (cs.map fun c => c.amount).sum

/-- The sum of the amounts of a source or destination list. -/
def totalAmt (l : List (String × ℚ)) : ℚ := (l.map fun e => e.2).sum

/-- The fields of a StrategyPosition that the brain reads: protocol id,
current allocation weight and current APY. -/
structure Position where
  protocol : String
  allocation : ℚ
  currentAPY : ℚ
deriving Repr

/-- The fields of a VaultState that the brain reads. -/
structure VaultState where
  totalValueUSD : ℚ
  positions : List Position
deriving Repr

/-- StrategyBrain.getCurrentAllocationMap: positions poured into a map
keyed by protocol. -/
def getCurrentAllocationMap (positions : List Position) :
    List (String × ℚ) :=
  positions.foldl (fun m pos => mapSet m pos.protocol pos.allocation) []

/-- The reason strings produced by analyzeAndDecide, one constructor per
template literal, carrying the interpolated quantities. -/
inductive DecisionReason where
  | tooSoonSinceLastRebalance (elapsedMinutes : ℤ) (minMinutes : ℚ)
  | apyImprovementBelowThreshold (improvement threshold : ℚ)
  | gasCostExceedsMax (gas maxGas : ℚ)
  | rebalanceImprovesAPY (improvement : ℚ)
deriving DecidableEq, Repr

/-- A RebalanceDecision as assembled by analyzeAndDecide. -/
structure RebalanceDecision where
  shouldRebalance : Bool
  reason : DecisionReason
  proposedChanges : List Transfer
  expectedAPYImprovement : ℚ
  estimatedGasCost : ℚ
deriving DecidableEq, Repr

/-- StrategyBrain.calculateExpectedImprovement: optimal-allocation
weighted APY (protocols missing from the APY list contribute nothing)
minus current weighted APY. -/
def calculateExpectedImprovement (currentPositions : List Position)
    (optimalAllocation : List (String × ℚ))
    (apys : List ProtocolRecord) : ℚ :=
  let currentAPY := currentPositions.foldl
    (fun sum pos => sum + pos.currentAPY * pos.allocation) 0
  let optimalAPY := optimalAllocation.foldl
    (fun acc kv =>
      match apys.find? (fun a => a.protocol == kv.1) with
      | some apy => acc + apy.totalAPY * kv.2
      | none => acc)
    0
  optimalAPY - currentAPY

/-- The single cross-cycle mutable field of StrategyBrain: the time (in
milliseconds, as produced by Date.now) of the last recorded rebalance, or
none before the first one. -/
structure BrainState where
  lastRebalanceTime : Option ℚ
deriving DecidableEq, Repr

/-- StrategyBrain.recordRebalance: stamp the current time. -/
def recordRebalance (nowMs : ℚ) : BrainState :=
  { lastRebalanceTime := some nowMs }

/-- StrategyBrain.analyzeAndDecide.  The awaited yield fetch is passed as
an already-resolved Except value: a rejected fetch propagates out of the
method unchanged, since the source has no try/catch around it.  The brain
state is threaded through and returned; the method body never assigns
lastRebalanceTime, so the returned state is the input state.  Times are
in milliseconds; the source divides by 1000 before comparing with the
configured cooldown seconds.  Math.log10 inside the risk scorer is the lg
parameter. -/
def analyzeAndDecide {ε : Type} (cfg : AgentConfig) (lg : ℚ → ℚ)
    (st : BrainState) (nowMs : ℚ)
    (fetched : Except ε (List ProtocolRecord)) (vault : VaultState) :
    Except ε RebalanceDecision × BrainState :=
  match fetched with
  | .error e => (.error e, st)
  | .ok apys =>
    let risks := calculateRiskScores lg apys
    let ranked := rankOpportunities apys risks cfg.minRiskScore
    let afterCooldown : Except ε RebalanceDecision :=
      let optimalAllocation := calculateOptimalAllocation cfg ranked
      let currentAllocation := getCurrentAllocationMap vault.positions
      let changes := calculateRequiredChanges currentAllocation
        optimalAllocation vault.totalValueUSD
      let expectedImprovement := calculateExpectedImprovement
        vault.positions optimalAllocation apys
      let estimatedGas := (changes.length : ℚ) * (1 / 1000) * 200
      if expectedImprovement < cfg.minAPYDifferenceToRebalance then
        .ok { shouldRebalance := false,
              reason := .apyImprovementBelowThreshold expectedImprovement
                cfg.minAPYDifferenceToRebalance,
              proposedChanges := [],
              expectedAPYImprovement := expectedImprovement,
              estimatedGasCost := estimatedGas }
      else if cfg.maxGasCostForRebalance < estimatedGas then
        .ok { shouldRebalance := false,
              reason := .gasCostExceedsMax estimatedGas
                cfg.maxGasCostForRebalance,
              proposedChanges := changes,
              expectedAPYImprovement := expectedImprovement,
              estimatedGasCost := estimatedGas }
      else
        .ok { shouldRebalance := true,
              reason := .rebalanceImprovesAPY expectedImprovement,
              proposedChanges := changes,
              expectedAPYImprovement := expectedImprovement,
              estimatedGasCost := estimatedGas }
    match st.lastRebalanceTime with
    | some lastMs =>
      let timeSinceRebalance := (nowMs - lastMs) / 1000
      if timeSinceRebalance < cfg.minTimeBetweenRebalances then
        (.ok { shouldRebalance := false,
               reason := .tooSoonSinceLastRebalance
                 ⌊timeSinceRebalance / 60⌋
                 (cfg.minTimeBetweenRebalances / 60),
               proposedChanges := [],
               expectedAPYImprovement := 0,
               estimatedGasCost := 0 }, st)
      else (afterCooldown, st)
    | none => (afterCooldown, st)

/-- The minimum-hold-days computation of rankCrossChainOpportunities
(multichain-monitor source):
totalCost > 0 && apy > 0 ? Math.ceil((totalCost / 1000) / (apy / 365)) : 0,
with the reference position fixed at 1000 dollars. -/
def minHoldDaysCalc (totalCost apy : ℚ) : ℤ :=
  if 0 < totalCost ∧ 0 < apy then ⌈(totalCost / 1000) / (apy / 365)⌉
  else 0

/-- The per-chain bridge cost column of CHAIN_CONFIG (chains source). -/
def chainBridgeCostUSD (chain : String) : ℚ :=
  if chain = "solana" then 3 / 2
  else if chain = "ethereum" then 2
  else 1

/-- The per-chain average gas cost column of CHAIN_CONFIG. -/
def chainAvgGasCostUSD (chain : String) : ℚ :=
  if chain = "solana" then 1 / 1000
  else if chain = "base" then 1 / 20
  else if chain = "ethereum" then 5
  else if chain = "arbitrum" then 1 / 10
  else 1 / 1000

/-- The cost assembly of rankCrossChainOpportunities: bridge cost only
when the opportunity is on another chain, plus the gas cost of the
destination chain. -/
def crossChainTotalCost (oppChain currentChain : String) : ℚ :=
  (if oppChain ≠ currentChain then chainBridgeCostUSD oppChain else 0) +
    chainAvgGasCostUSD oppChain

/-- Claim C7: when the upstream yield fetch fails, analyzeAndDecide
propagates the error to the caller instead of producing a decision, and
the last-rebalance timestamp held in the brain state is unchanged. -/
theorem claim_C7_fetch_error_propagates {ε : Type} (cfg : AgentConfig)
    (lg : ℚ → ℚ) (st : BrainState) (nowMs : ℚ) (e : ε)
    (vault : VaultState) :
    analyzeAndDecide cfg lg st nowMs (Except.error e) vault =
      (Except.error e, st) := rfl

/-- Claim C6: after recordRebalance stamps time t, a call to
analyzeAndDecide at time tNow whose elapsed seconds (tNow - t) / 1000 are
below the configured cooldown returns should-act false, the
too-soon-since-last-rebalance reason, and an empty transfer list,
regardless of the fetched market data and the vault state. -/
theorem claim_C6_cooldown {ε : Type} (cfg : AgentConfig) (lg : ℚ → ℚ)
    (t tNow : ℚ) (apys : List ProtocolRecord) (vault : VaultState)
    (h : (tNow - t) / 1000 < cfg.minTimeBetweenRebalances) :
    analyzeAndDecide (ε := ε) cfg lg (recordRebalance t) tNow
        (Except.ok apys) vault =
      (Except.ok
        { shouldRebalance := false,
          reason := DecisionReason.tooSoonSinceLastRebalance
            ⌊((tNow - t) / 1000) / 60⌋
            (cfg.minTimeBetweenRebalances / 60),
          proposedChanges := [],
          expectedAPYImprovement := 0,
          estimatedGasCost := 0 }, recordRebalance t) := by
  simp only [analyzeAndDecide, recordRebalance, if_pos h]

/-- Witness for claim C6 at a concrete input: cooldown 600 seconds,
rebalance recorded at 0 ms, second call at 1000 ms. -/
theorem claim_C6_cooldown_witness :
    ((1000 : ℚ) - 0) / 1000 < (600 : ℚ) ∧
    analyzeAndDecide (ε := Unit) ⟨60, 2, 1 / 2, 600, 1 / 200, 5⟩
        (fun _ => 0) (recordRebalance 0) 1000 (Except.ok [])
        ⟨0, []⟩ =
      (Except.ok ⟨false, DecisionReason.tooSoonSinceLastRebalance 0 10,
        [], 0, 0⟩, recordRebalance 0) := by
  refine ⟨by norm_num, ?_⟩
  rw [claim_C6_cooldown _ _ _ _ _ _ (by norm_num)]
  norm_num

/-- Claim C8: the cross-chain minimum break-even hold days equal
ceil(totalCost / (apy / 365 * 1000)) whenever both the APY and the total
cost are positive, and 0 otherwise; the division only happens under the
positivity guard, so no division by zero occurs. -/
theorem claim_C8_min_hold_days (totalCost apy : ℚ) :
    (0 < apy → 0 < totalCost →
      minHoldDaysCalc totalCost apy =
        ⌈totalCost / ((apy / 365) * 1000)⌉) ∧
    (¬ (0 < totalCost ∧ 0 < apy) → minHoldDaysCalc totalCost apy = 0) := by
  constructor
  · intro ha hc
    rw [minHoldDaysCalc, if_pos ⟨hc, ha⟩, div_div, mul_comm]
  · intro h
    rw [minHoldDaysCalc, if_neg h]

/-- Witness for claim C8: a 2 dollar total cost at 3.65 percent APY needs
20 hold days on the 1000 dollar reference position, and a zero cost
yields 0 days. -/
theorem claim_C8_min_hold_days_witness :
    minHoldDaysCalc 2 (365 / 10000) = ⌈(2 : ℚ) / ((365 / 10000 / 365) * 1000)⌉ ∧
    minHoldDaysCalc 0 (365 / 10000) = 0 := by
  constructor
  · exact (claim_C8_min_hold_days 2 (365 / 10000)).1 (by norm_num)
      (by norm_num)
  · exact (claim_C8_min_hold_days 0 (365 / 10000)).2 (by norm_num)

/-- Claim C9: a record whose protocol has no PROTOCOL_CONFIG entry is
scored with all component sub-scores 0 and total exactly 50, and its
presence in the input list leaves the scores of every other record
unchanged (the scorer is an elementwise map). -/
theorem claim_C9_unknown_protocol_neutral (lg : ℚ → ℚ)
    (before after : List ProtocolRecord) (apy : ProtocolRecord)
    (h : protocolConfigRiskBase apy.protocol = none) :
    calculateRiskScores lg (before ++ apy :: after) =
      calculateRiskScores lg before ++
        { protocol := apy.protocol, tvlScore := 0, auditScore := 0,
          ageScore := 0, exploitScore := 0, totalScore := 50 } ::
          calculateRiskScores lg after := by
  simp [calculateRiskScores, h]

/-- Witness for claim C9: the unconfigured protocol atlantis scores the
neutral 50 next to a kamino record whose score is unaffected. -/
theorem claim_C9_unknown_protocol_neutral_witness :
    protocolConfigRiskBase "atlantis" = none ∧
    calculateRiskScores (fun _ => 0)
        [⟨"kamino", 1 / 20, 2000000⟩, ⟨"atlantis", 1 / 10, 5000000⟩] =
      [⟨"kamino", 0, 22, 20, 25, 67⟩, ⟨"atlantis", 0, 0, 0, 0, 50⟩] := by
  refine ⟨rfl, ?_⟩
  rw [show ([⟨"kamino", 1 / 20, 2000000⟩,
        ⟨"atlantis", 1 / 10, 5000000⟩] : List ProtocolRecord) =
      [⟨"kamino", 1 / 20, 2000000⟩] ++ ⟨"atlantis", 1 / 10, 5000000⟩ :: []
      from rfl,
    claim_C9_unknown_protocol_neutral (fun _ => 0) [⟨"kamino", 1 / 20, 2000000⟩]
      [] ⟨"atlantis", 1 / 10, 5000000⟩ rfl]
  simp [calculateRiskScores, protocolConfigRiskBase, roundTenth]
  norm_num

/-- Claim C1, counterexample: with cap 1/2 and ranked risk-adjusted APYs
9 and 1, the raw shares are 9/10 and 1/10, capping gives 1/2 and 1/10,
and renormalizing by their sum 3/5 yields the final weight 5/6 for the
first protocol — strictly above the configured cap.  The plan returned by
calculateOptimalAllocation therefore violates the per-protocol cap. -/
theorem claim_C1_counterexample :
    calculateOptimalAllocation ⟨60, 2, 1 / 2, 600, 1 / 200, 5⟩
        [⟨"a", 0, 80, 9⟩, ⟨"b", 0, 70, 1⟩] =
      [("a", 5 / 6), ("b", 1 / 6)] ∧
    ¬ ((5 : ℚ) / 6 ≤
      (⟨60, 2, 1 / 2, 600, 1 / 200, 5⟩ : AgentConfig).maxAllocationPerProtocol) := by
  constructor
  · simp [calculateOptimalAllocation, allocRaw, allocTotalWeight,
      allocTotalAllocation, protocolsToUse, mapSet, min_def]
    norm_num
  · norm_num

/-- Claim C2: at an input where every ranked risk-adjusted APY is 0
(selection of two protocols, diversity floor 2), the sum totalWeight the
source divides by is 0.  In the rational model with total division the
resulting plan maps every protocol to 0, not to the equal weight 1/2; in
JavaScript the division 0/0 yields NaN for every weight.  Either way the
optimizer does not produce the equal-weight fallback the claim
describes. -/
theorem claim_C2_zero_yield_divides_by_zero :
    allocTotalWeight ⟨60, 2, 1 / 2, 600, 1 / 200, 5⟩
        [⟨"a", 0, 80, 0⟩, ⟨"b", 0, 70, 0⟩] = 0 ∧
    calculateOptimalAllocation ⟨60, 2, 1 / 2, 600, 1 / 200, 5⟩
        [⟨"a", 0, 80, 0⟩, ⟨"b", 0, 70, 0⟩] = [("a", 0), ("b", 0)] ∧
    ∀ kv ∈ calculateOptimalAllocation ⟨60, 2, 1 / 2, 600, 1 / 200, 5⟩
        [⟨"a", 0, 80, 0⟩, ⟨"b", 0, 70, 0⟩], kv.2 ≠ (1 : ℚ) / 2 := by
  refine ⟨by simp [allocTotalWeight, protocolsToUse], ?_, ?_⟩
  · simp [calculateOptimalAllocation, allocRaw, allocTotalWeight,
      allocTotalAllocation, protocolsToUse, mapSet, min_def]
  · intro kv hkv
    simp [calculateOptimalAllocation, allocRaw, allocTotalWeight,
      allocTotalAllocation, protocolsToUse, mapSet, min_def] at hkv
    rcases hkv with h | h <;> rw [h] <;> norm_num

/-- Claim C3, counterexample: the current allocation holds protocol A at
weight 1 and the target allocation drops A entirely (target is B at 1).
The delta for A is -1, far beyond the -0.01 threshold, so the claim
requires A to appear as a source with amount 1000; but the diff loop of
calculateRequiredChanges iterates only over the target map, so A is never
examined and the sources list comes out empty. -/
theorem claim_C3_counterexample :
    (diffStep [("A", 1)] [("B", 1)] 1000).1 = [] ∧
    (diffStep [("A", 1)] [("B", 1)] 1000).2 = [("B", 1000)] ∧
    ((0 : ℚ) - 1 < -(1 / 100)) := by
  refine ⟨?_, ?_, by norm_num⟩ <;>
    · simp [diffStep, diffBody, jsOr, getVal]
      norm_num

/-- Claim C4, counterexample: with total value 50, current allocation
A at 0.0201 and target A at 0, B at 0.02, C at 0.011, the diff step
produces sources [A: 1.005] and destinations [B: 1, C: 0.55].  The
matcher moves 1 from A to B, then drops the residual 0.005 of A because
it is below 0.01, so the total moved is 1 while
min(total sources, total destinations) = min(1.005, 1.55) = 1.005. -/
theorem claim_C4_counterexample :
    calculateRequiredChanges [("A", 201 / 10000)]
        [("A", 0), ("B", 1 / 50), ("C", 11 / 1000)] 50 = [⟨"A", "B", 1⟩] ∧
    totalMoved (calculateRequiredChanges [("A", 201 / 10000)]
        [("A", 0), ("B", 1 / 50), ("C", 11 / 1000)] 50) = 1 ∧
    min (totalAmt (diffStep [("A", 201 / 10000)]
          [("A", 0), ("B", 1 / 50), ("C", 11 / 1000)] 50).1)
        (totalAmt (diffStep [("A", 201 / 10000)]
          [("A", 0), ("B", 1 / 50), ("C", 11 / 1000)] 50).2) = 201 / 200 ∧
    (1 : ℚ) ≠ 201 / 200 := by
  have hdiff : diffStep [("A", 201 / 10000)]
      [("A", 0), ("B", 1 / 50), ("C", 11 / 1000)] 50 =
      ([("A", 201 / 200)], [("B", 1), ("C", 11 / 20)]) := by
    simp [diffStep, diffBody, jsOr, getVal, abs, max_def]
    norm_num
  have hchanges : calculateRequiredChanges [("A", 201 / 10000)]
      [("A", 0), ("B", 1 / 50), ("C", 11 / 1000)] 50 = [⟨"A", "B", 1⟩] := by
    rw [calculateRequiredChanges, hdiff]
    norm_num [matchLoop, min_def]
  refine ⟨hchanges, ?_, ?_, by norm_num⟩
  · rw [hchanges]
    simp [totalMoved]
  · rw [hdiff]
    simp [totalAmt, min_def]
    norm_num

/-- Folding the diff-loop body appends to both accumulated lists exactly
the entries selected by filtering the target map with the two threshold
tests. -/
lemma diffStep_foldl_eq (current : List (String × ℚ)) (V : ℚ)
    (optimal : List (String × ℚ))
    (acc : List (String × ℚ) × List (String × ℚ)) :
    optimal.foldl (diffBody current V) acc =
      (acc.1 ++ optimal.filterMap (fun pw =>
        if pw.2 - jsOr (getVal current pw.1) 0 < -(1 / 100) then
          some (pw.1, |pw.2 - jsOr (getVal current pw.1) 0| * V)
        else none),
       acc.2 ++ optimal.filterMap (fun pw =>
        if pw.2 - jsOr (getVal current pw.1) 0 < -(1 / 100) then none
        else if 1 / 100 < pw.2 - jsOr (getVal current pw.1) 0 then
          some (pw.1, (pw.2 - jsOr (getVal current pw.1) 0) * V)
        else none)) := by
  induction optimal generalizing acc with
  | nil => simp
  | cons pw rest ih =>
    simp only [List.foldl_cons, List.filterMap_cons, diffBody]
    split_ifs with h1 h2 <;> simp [ih]

/-- Claim C3, amended: the diff step computes
delta = targetWeight - currentWeight only for the protocols of the target
allocation, in target order: each such protocol with delta below -0.01 is
a source with amount abs(delta) times totalValue, each with delta above
0.01 is a destination with amount delta times totalValue, and nothing
else enters either list.  Protocols present in the current allocation but
absent from the target are never examined and never become sources. -/
theorem claim_C3_amended (current optimal : List (String × ℚ)) (V : ℚ) :
    diffStep current optimal V =
      (optimal.filterMap (fun pw =>
        if pw.2 - jsOr (getVal current pw.1) 0 < -(1 / 100) then
          some (pw.1, |pw.2 - jsOr (getVal current pw.1) 0| * V)
        else none),
       optimal.filterMap (fun pw =>
        if pw.2 - jsOr (getVal current pw.1) 0 < -(1 / 100) then none
        else if 1 / 100 < pw.2 - jsOr (getVal current pw.1) 0 then
          some (pw.1, (pw.2 - jsOr (getVal current pw.1) 0) * V)
        else none)) := by
  rw [diffStep, diffStep_foldl_eq]
  simp

/-- The selection slice takes max(diversity floor, length) elements, which
is never less than the length, so it returns the whole ranked list. -/
lemma protocolsToUse_eq (cfg : AgentConfig) (ranked : List Opportunity) :
    protocolsToUse cfg ranked = ranked :=
  List.take_of_length_le (le_max_right _ _)

/-- Setting a key that does not occur in the association list appends the
binding at the end. -/
lemma mapSet_fresh (m : List (String × ℚ)) (k : String) (v : ℚ)
    (h : k ∉ m.map Prod.fst) : mapSet m k v = m ++ [(k, v)] := by
  induction m with
  | nil => rfl
  | cons kv rest ih =>
    simp only [List.map_cons, List.mem_cons] at h
    push_neg at h
    simp only [mapSet]
    rw [if_neg (fun hk => h.1 hk.symm), ih h.2]
    simp

/-- Folding map-set over elements with pairwise distinct keys, all fresh
for the accumulator, appends one binding per element in order. -/
lemma foldl_mapSet_eq (w : Opportunity → ℚ) (l : List Opportunity)
    (acc : List (String × ℚ))
    (hnd : (l.map Opportunity.protocol).Nodup)
    (hdis : ∀ p ∈ l, p.protocol ∉ acc.map Prod.fst) :
    l.foldl (fun m p => mapSet m p.protocol (w p)) acc =
      acc ++ l.map (fun p => (p.protocol, w p)) := by
  induction l generalizing acc with
  | nil => simp
  | cons p rest ih =>
    simp only [List.map_cons, List.nodup_cons] at hnd
    simp only [List.foldl_cons]
    rw [mapSet_fresh acc p.protocol (w p) (hdis p (by simp)),
      ih (acc ++ [(p.protocol, w p)]) hnd.2]
    · simp
    · intro q hq
      simp only [List.map_append, List.mem_append]
      push_neg
      refine ⟨fun hmem => hdis q (by simp [hq]) hmem, ?_⟩
      simp only [List.map_cons, List.map_nil, List.mem_singleton]
      intro hEq
      exact hnd.1 (hEq ▸ List.mem_map_of_mem Opportunity.protocol hq)

/-- Under pairwise distinct protocol names, the capped allocation map has
exactly one binding per ranked opportunity, in ranked order. -/
lemma allocRaw_eq (cfg : AgentConfig) (ranked : List Opportunity)
    (hnd : (ranked.map Opportunity.protocol).Nodup) :
    allocRaw cfg ranked = ranked.map (fun p =>
      (p.protocol,
        min (p.riskAdjustedAPY / allocTotalWeight cfg ranked)
          cfg.maxAllocationPerProtocol)) := by
  rw [allocRaw, protocolsToUse_eq]
  rw [foldl_mapSet_eq _ ranked [] hnd (by simp)]
  simp

/-- Claim C10: the selection slice
ranked.slice(0, max(minProtocolsForDiversity, ranked.length)) always
equals the whole ranked list, so the diversity floor never constrains or
expands the selection, and (for pairwise distinct protocol names) the
returned plan has exactly one entry per ranked opportunity — hence fewer
entries than the diversity floor whenever fewer opportunities were
ranked. -/
theorem claim_C10_diversity_floor_inert (cfg : AgentConfig)
    (ranked : List Opportunity) :
    protocolsToUse cfg ranked = ranked ∧
    ((ranked.map Opportunity.protocol).Nodup →
      (calculateOptimalAllocation cfg ranked).length = ranked.length) ∧
    ((ranked.map Opportunity.protocol).Nodup →
      ranked.length < cfg.minProtocolsForDiversity →
      (calculateOptimalAllocation cfg ranked).length <
        cfg.minProtocolsForDiversity) := by
  have hlen : (ranked.map Opportunity.protocol).Nodup →
      (calculateOptimalAllocation cfg ranked).length = ranked.length := by
    intro hnd
    rw [calculateOptimalAllocation, List.length_map, allocRaw_eq cfg ranked hnd,
      List.length_map]
  exact ⟨protocolsToUse_eq cfg ranked, hlen,
    fun hnd hlt => (hlen hnd).symm ▸ hlt⟩

/-- Witness for claim C10: a single ranked opportunity under a diversity
floor of two yields a one-entry plan, below the floor. -/
theorem claim_C10_diversity_floor_inert_witness :
    protocolsToUse ⟨60, 2, 1 / 2, 600, 1 / 200, 5⟩ [⟨"a", 0, 80, 9⟩] =
      [⟨"a", 0, 80, 9⟩] ∧
    (calculateOptimalAllocation ⟨60, 2, 1 / 2, 600, 1 / 200, 5⟩
      [⟨"a", 0, 80, 9⟩]).length = 1 ∧
    (calculateOptimalAllocation ⟨60, 2, 1 / 2, 600, 1 / 200, 5⟩
      [⟨"a", 0, 80, 9⟩]).length < 2 := by
  have h := claim_C10_diversity_floor_inert ⟨60, 2, 1 / 2, 600, 1 / 200, 5⟩
    [⟨"a", 0, 80, 9⟩]
  exact ⟨h.1, h.2.1 (by simp), h.2.2 (by simp) (by norm_num)⟩

/-- Dividing every element of a rational list by a constant divides the
sum by that constant. -/
lemma sum_map_div_const (l : List ℚ) (c : ℚ) :
    (l.map (fun x => x / c)).sum = l.sum / c := by
  induction l with
  | nil => simp
  | cons x xs ih => simp [ih, add_div]

/-- Claim C1, amended: for a nonempty ranked list with pairwise distinct
protocols, non-negative risk-adjusted APYs with a positive sum, and a
positive cap, the plan produced by calculateOptimalAllocation has
non-negative weights that sum to exactly 1, and every weight of the
pre-normalization map allocRaw is at most the configured cap.  The cap
only ceils the pre-normalization share: the final renormalized weight can
exceed it, which is the part of the original claim that fails. -/
theorem claim_C1_amended (cfg : AgentConfig) (ranked : List Opportunity)
    (_hne : ranked ≠ [])
    (hnn : ∀ r ∈ ranked, 0 ≤ r.riskAdjustedAPY)
    (hT : 0 < allocTotalWeight cfg ranked)
    (hcap : 0 < cfg.maxAllocationPerProtocol)
    (hnd : (ranked.map Opportunity.protocol).Nodup) :
    (∀ kv ∈ calculateOptimalAllocation cfg ranked, 0 ≤ kv.2) ∧
    ((calculateOptimalAllocation cfg ranked).map (fun kv => kv.2)).sum = 1 ∧
    (∀ kv ∈ allocRaw cfg ranked, kv.2 ≤ cfg.maxAllocationPerProtocol) := by
  have hAlloc := allocRaw_eq cfg ranked hnd
  have htermNonneg : ∀ p ∈ ranked,
      0 ≤ min (p.riskAdjustedAPY / allocTotalWeight cfg ranked)
        cfg.maxAllocationPerProtocol := fun p hp =>
    le_min (div_nonneg (hnn p hp) hT.le) hcap.le
  have hRawNonneg : ∀ kv ∈ allocRaw cfg ranked, 0 ≤ kv.2 := by
    intro kv hkv
    rw [hAlloc] at hkv
    obtain ⟨p, hp, rfl⟩ := List.mem_map.mp hkv
    exact htermNonneg p hp
  have hpos : ∃ r ∈ ranked, 0 < r.riskAdjustedAPY := by
    by_contra hcon
    push_neg at hcon
    have hzero : allocTotalWeight cfg ranked = 0 := by
      rw [allocTotalWeight, protocolsToUse_eq]
      refine List.sum_eq_zero ?_
      intro x hx
      obtain ⟨p, hp, rfl⟩ := List.mem_map.mp hx
      exact le_antisymm (hcon p hp) (hnn p hp)
    exact hT.ne.symm hzero
  obtain ⟨r, hr, hrpos⟩ := hpos
  have hSpos : 0 < allocTotalAllocation cfg ranked := by
    rw [allocTotalAllocation]
    have hmem : min (r.riskAdjustedAPY / allocTotalWeight cfg ranked)
        cfg.maxAllocationPerProtocol ∈ (allocRaw cfg ranked).map
          (fun kv => kv.2) := by
      rw [hAlloc, List.map_map]
      exact List.mem_map_of_mem _ hr
    have hle := List.single_le_sum (l := (allocRaw cfg ranked).map
      (fun kv => kv.2)) ?_ _ hmem
    · exact lt_of_lt_of_le (lt_min (div_pos hrpos hT) hcap) hle
    · intro x hx
      obtain ⟨kv, hkv, rfl⟩ := List.mem_map.mp hx
      exact hRawNonneg kv hkv
  refine ⟨?_, ?_, ?_⟩
  · intro kv hkv
    obtain ⟨q, hq, rfl⟩ := List.mem_map.mp hkv
    exact div_nonneg (hRawNonneg q hq) hSpos.le
  · have hmaps : (calculateOptimalAllocation cfg ranked).map
        (fun kv => kv.2) =
        ((allocRaw cfg ranked).map (fun kv => kv.2)).map
          (fun x => x / allocTotalAllocation cfg ranked) := by
      simp [calculateOptimalAllocation, List.map_map]
    rw [hmaps, sum_map_div_const, ← allocTotalAllocation,
      div_self hSpos.ne.symm]
  · intro kv hkv
    rw [hAlloc] at hkv
    obtain ⟨p, hp, rfl⟩ := List.mem_map.mp hkv
    exact min_le_right _ _

/-- Witness for claim C1 (amended) at the counterexample input: weights
5/6 and 1/6 are non-negative and sum to 1, and the pre-normalization
weights 1/2 and 1/10 respect the cap 1/2. -/
theorem claim_C1_amended_witness :
    (∀ kv ∈ calculateOptimalAllocation ⟨60, 2, 1 / 2, 600, 1 / 200, 5⟩
        [⟨"a", 0, 80, 9⟩, ⟨"b", 0, 70, 1⟩], 0 ≤ kv.2) ∧
    ((calculateOptimalAllocation ⟨60, 2, 1 / 2, 600, 1 / 200, 5⟩
        [⟨"a", 0, 80, 9⟩, ⟨"b", 0, 70, 1⟩]).map (fun kv => kv.2)).sum = 1 ∧
    (∀ kv ∈ allocRaw ⟨60, 2, 1 / 2, 600, 1 / 200, 5⟩
        [⟨"a", 0, 80, 9⟩, ⟨"b", 0, 70, 1⟩],
      kv.2 ≤ (⟨60, 2, 1 / 2, 600, 1 / 200, 5⟩ : AgentConfig).maxAllocationPerProtocol) :=
  claim_C1_amended ⟨60, 2, 1 / 2, 600, 1 / 200, 5⟩
    [⟨"a", 0, 80, 9⟩, ⟨"b", 0, 70, 1⟩] (by simp)
    (by
      intro r hr
      simp only [List.mem_cons, List.mem_singleton] at hr
      rcases hr with h | h | h
      · rw [h]
        norm_num
      · rw [h]
        norm_num
      · simp at h)
    (by simp [allocTotalWeight, protocolsToUse]; norm_num)
    (by norm_num) (by simp)

/-- Inserting into a list is a permutation of consing. -/
lemma insertDesc_perm (x : Opportunity) (l : List Opportunity) :
    (insertDesc x l).Perm (x :: l) := by
  induction l with
  | nil => exact List.Perm.refl _
  | cons y ys ih =>
    rw [insertDesc]
    split_ifs with h
    · exact (ih.cons y).trans (List.Perm.swap x y ys)
    · exact List.Perm.refl _

/-- The stable insertion sort permutes its input. -/
lemma sortDesc_perm (l : List Opportunity) : (sortDesc l).Perm l := by
  induction l with
  | nil => exact List.Perm.refl _
  | cons x xs ih => exact (insertDesc_perm x (sortDesc xs)).trans (ih.cons x)

/-- Inserting into a list that is pairwise non-increasing in the
risk-adjusted APY keeps it pairwise non-increasing. -/
lemma insertDesc_pairwise (x : Opportunity) (l : List Opportunity)
    (h : l.Pairwise fun a b => b.riskAdjustedAPY ≤ a.riskAdjustedAPY) :
    (insertDesc x l).Pairwise
      fun a b => b.riskAdjustedAPY ≤ a.riskAdjustedAPY := by
  induction l with
  | nil => simp [insertDesc]
  | cons y ys ih =>
    rw [List.pairwise_cons] at h
    rw [insertDesc]
    split_ifs with hlt
    · rw [List.pairwise_cons]
      refine ⟨?_, ih h.2⟩
      intro z hz
      rcases List.mem_cons.mp ((insertDesc_perm x ys).mem_iff.mp hz) with
        hzx | hzy
      · rw [hzx]
        exact hlt.le
      · exact h.1 z hzy
    · rw [List.pairwise_cons]
      refine ⟨?_, List.pairwise_cons.mpr h⟩
      intro z hz
      rcases List.mem_cons.mp hz with hzy | hzys
      · rw [hzy]
        exact not_lt.mp hlt
      · exact (h.1 z hzys).trans (not_lt.mp hlt)

/-- The stable insertion sort is pairwise non-increasing in the
risk-adjusted APY. -/
lemma sortDesc_pairwise (l : List Opportunity) :
    (sortDesc l).Pairwise
      fun a b => b.riskAdjustedAPY ≤ a.riskAdjustedAPY := by
  induction l with
  | nil => simp [sortDesc]
  | cons x xs ih => exact insertDesc_pairwise x (sortDesc xs) ih

/-- Filtering for a key value different from that of the inserted element
ignores the insertion. -/
lemma filter_insertDesc_ne (x : Opportunity) (l : List Opportunity) (q : ℚ)
    (hx : x.riskAdjustedAPY ≠ q) :
    (insertDesc x l).filter (fun r => decide (r.riskAdjustedAPY = q)) =
      l.filter (fun r => decide (r.riskAdjustedAPY = q)) := by
  induction l with
  | nil => simp [insertDesc, hx]
  | cons y ys ih =>
    rw [insertDesc]
    split_ifs with hlt
    · rw [List.filter_cons, List.filter_cons]
      split_ifs with hy
      · rw [ih]
      · exact ih
    · rw [List.filter_cons]
      simp [hx]

/-- An element inserted with key value q lands in front of every element
of equal key already present, because insertion only passes strictly
larger keys: on the filtered-by-q sublist the insertion is a cons. -/
lemma filter_insertDesc_eq (x : Opportunity) (l : List Opportunity) (q : ℚ)
    (hx : x.riskAdjustedAPY = q) :
    (insertDesc x l).filter (fun r => decide (r.riskAdjustedAPY = q)) =
      x :: l.filter (fun r => decide (r.riskAdjustedAPY = q)) := by
  induction l with
  | nil => simp [insertDesc, hx]
  | cons y ys ih =>
    rw [insertDesc]
    split_ifs with hlt
    · have hy : y.riskAdjustedAPY ≠ q := ne_of_gt (hx ▸ hlt)
      rw [List.filter_cons, if_neg (by simp [hy]), ih,
        List.filter_cons, if_neg (by simp [hy])]
    · rw [List.filter_cons]
      simp [hx]

/-- Stability of the sort: the sublist of any fixed key value is exactly
the sublist of that key value in the input, in input order. -/
lemma filter_sortDesc (l : List Opportunity) (q : ℚ) :
    (sortDesc l).filter (fun r => decide (r.riskAdjustedAPY = q)) =
      l.filter (fun r => decide (r.riskAdjustedAPY = q)) := by
  induction l with
  | nil => rfl
  | cons x xs ih =>
    rw [sortDesc]
    by_cases hx : x.riskAdjustedAPY = q
    · rw [filter_insertDesc_eq x (sortDesc xs) q hx, ih,
        List.filter_cons, if_pos (by simp [hx])]
    · rw [filter_insertDesc_ne x (sortDesc xs) q hx, ih,
        List.filter_cons, if_neg (by simp [hx])]

/-- Claim C5: rankOpportunities returns exactly the mapped entries whose
(defaulted) risk score reaches the minimum — a permutation of the
filtered input; the output is monotonically non-increasing in
risk-adjusted APY; entries of equal risk-adjusted APY keep their input
order (the filtered sublist at any fixed key equals that of the input);
and empty input yields the empty sequence (all-filtered input yields it
too, by the permutation conjunct). -/
theorem claim_C5_rank_filter_sort_stable (apys : List ProtocolRecord)
    (risks : List ScoreRecord) (minRiskScore : ℚ) :
    (rankOpportunities apys risks minRiskScore).Perm
      ((apys.map (toOpportunity risks)).filter
        fun r => minRiskScore ≤ r.riskScore) ∧
    (rankOpportunities apys risks minRiskScore).Pairwise
      (fun a b => b.riskAdjustedAPY ≤ a.riskAdjustedAPY) ∧
    (∀ q : ℚ,
      (rankOpportunities apys risks minRiskScore).filter
          (fun r => decide (r.riskAdjustedAPY = q)) =
        ((apys.map (toOpportunity risks)).filter
            fun r => minRiskScore ≤ r.riskScore).filter
          (fun r => decide (r.riskAdjustedAPY = q))) ∧
    rankOpportunities [] risks minRiskScore = [] :=
  ⟨sortDesc_perm _, sortDesc_pairwise _, fun q => filter_sortDesc _ q, rfl⟩

/-- Unfolding equation of the matching loop on two nonempty lists. -/
lemma matchLoop_cons_cons (d i : String × ℚ)
    (ds is : List (String × ℚ)) :
    matchLoop (d :: ds) (i :: is) =
      (let m := min d.2 i.2
       if d.2 - m < 1 / 100 then
         if i.2 - m < 1 / 100 then
           let r := matchLoop ds is
           (⟨d.1, i.1, m⟩ :: r.1, (d.1, d.2 - m) :: r.2.1,
             (i.1, i.2 - m) :: r.2.2)
         else
           let r := matchLoop ds ((i.1, i.2 - m) :: is)
           (⟨d.1, i.1, m⟩ :: r.1, (d.1, d.2 - m) :: r.2.1, r.2.2)
       else
         let r := matchLoop ((d.1, d.2 - m) :: ds) is
         (⟨d.1, i.1, m⟩ :: r.1, r.2.1, (i.1, i.2 - m) :: r.2.2)) := by
  rw [matchLoop]

/-- Over non-negative source and destination amounts, the total amount
moved by the matching loop never exceeds the total of either side. -/
lemma matchLoop_moved_le (dec inc : List (String × ℚ)) :
    (∀ e ∈ dec, 0 ≤ e.2) → (∀ e ∈ inc, 0 ≤ e.2) →
      totalMoved (matchLoop dec inc).1 ≤ totalAmt dec ∧
      totalMoved (matchLoop dec inc).1 ≤ totalAmt inc := by
  induction dec, inc using matchLoop.induct with
  | case1 is =>
    intro _ hi
    constructor
    · simp [matchLoop, totalMoved, totalAmt]
    · simp only [matchLoop, totalMoved, totalAmt, List.map_nil,
        List.sum_nil]
      refine List.sum_nonneg ?_
      intro x hx
      obtain ⟨e, he, rfl⟩ := List.mem_map.mp hx
      exact hi e he
  | case2 d ds =>
    intro hd _
    constructor
    · simp only [matchLoop, totalMoved, totalAmt, List.map_nil,
        List.sum_nil]
      refine List.sum_nonneg ?_
      intro x hx
      obtain ⟨e, he, rfl⟩ := List.mem_map.mp hx
      exact hd e he
    · simp [matchLoop, totalMoved, totalAmt]
  | case3 d ds i is m h1 h2 ih =>
    intro hd hi
    have hm : m = min d.2 i.2 := rfl
    rw [hm] at h1 h2
    obtain ⟨ih1, ih2⟩ := ih (fun e he => hd e (List.mem_cons_of_mem d he))
      (fun e he => hi e (List.mem_cons_of_mem i he))
    rw [matchLoop_cons_cons]
    simp only [if_pos h1, if_pos h2, totalMoved, totalAmt, List.map_cons,
      List.sum_cons] at ih1 ih2 ⊢
    constructor
    · exact add_le_add (min_le_left _ _) ih1
    · exact add_le_add (min_le_right _ _) ih2
  | case4 d ds i is m h1 h2 ih =>
    intro hd hi
    have hm : m = min d.2 i.2 := rfl
    rw [hm] at h1 h2 ih
    have hins : ∀ e ∈ (i.1, i.2 - min d.2 i.2) :: is, 0 ≤ e.2 := by
      intro e he
      rcases List.mem_cons.mp he with rfl | hmem
      · exact sub_nonneg.mpr (min_le_right d.2 i.2)
      · exact hi e (List.mem_cons_of_mem i hmem)
    obtain ⟨ih1, ih2⟩ := ih (fun e he => hd e (List.mem_cons_of_mem d he))
      hins
    rw [matchLoop_cons_cons]
    simp only [if_pos h1, if_neg h2, totalMoved, totalAmt, List.map_cons,
      List.sum_cons] at ih1 ih2 ⊢
    constructor
    · exact add_le_add (min_le_left _ _) ih1
    · calc min d.2 i.2 + totalMoved (matchLoop ds
            ((i.1, i.2 - min d.2 i.2) :: is)).1
          ≤ min d.2 i.2 + ((i.2 - min d.2 i.2) + totalAmt is) := by
            simpa [totalAmt] using add_le_add_left ih2 (min d.2 i.2)
        _ = i.2 + totalAmt is := by ring
  | case5 d ds i is m h1 ih =>
    intro hd hi
    have hm : m = min d.2 i.2 := rfl
    rw [hm] at h1 ih
    have hdns : ∀ e ∈ (d.1, d.2 - min d.2 i.2) :: ds, 0 ≤ e.2 := by
      intro e he
      rcases List.mem_cons.mp he with rfl | hmem
      · exact sub_nonneg.mpr (min_le_left d.2 i.2)
      · exact hd e (List.mem_cons_of_mem d hmem)
    obtain ⟨ih1, ih2⟩ := ih hdns
      (fun e he => hi e (List.mem_cons_of_mem i he))
    rw [matchLoop_cons_cons]
    simp only [if_neg h1, totalMoved, totalAmt, List.map_cons,
      List.sum_cons] at ih1 ih2 ⊢
    constructor
    · calc min d.2 i.2 + totalMoved (matchLoop
            ((d.1, d.2 - min d.2 i.2) :: ds) is).1
          ≤ min d.2 i.2 + ((d.2 - min d.2 i.2) + totalAmt ds) := by
            simpa [totalAmt] using add_le_add_left ih1 (min d.2 i.2)
        _ = d.2 + totalAmt ds := by ring
    · exact add_le_add (min_le_right _ _) ih2

/-- A minimum of shifted sums is bounded by the larger shift plus the
minimum of the sums. -/
lemma min_add_le_max_add_min (a b x y : ℚ) :
    min (a + x) (b + y) ≤ max a b + min x y := by
  rcases le_total x y with h | h
  · calc min (a + x) (b + y) ≤ a + x := min_le_left _ _
      _ ≤ max a b + x := add_le_add_right (le_max_left a b) x
      _ = max a b + min x y := by rw [min_eq_left h]
  · calc min (a + x) (b + y) ≤ b + y := min_le_right _ _
      _ ≤ max a b + y := add_le_add_right (le_max_right a b) y
      _ = max a b + min x y := by rw [min_eq_right h]

/-- The matching loop moves all of the smaller side except for what it
forgives when advancing a pointer, and each advance forgives less than
0.01; so the smaller total exceeds the moved total by less than 0.01 per
list entry. -/
lemma matchLoop_min_le (dec inc : List (String × ℚ)) :
    min (totalAmt dec) (totalAmt inc) ≤
      totalMoved (matchLoop dec inc).1 +
        (1 / 100) * ((dec.length : ℚ) + (inc.length : ℚ)) := by
  induction dec, inc using matchLoop.induct with
  | case1 is =>
    simp only [matchLoop, totalMoved, totalAmt, List.map_nil,
      List.sum_nil, List.length_nil]
    refine le_trans (min_le_left _ _) ?_
    positivity
  | case2 d ds =>
    simp only [matchLoop, totalMoved, totalAmt, List.map_nil,
      List.sum_nil, List.length_nil]
    refine le_trans (min_le_right _ _) ?_
    positivity
  | case3 d ds i is m h1 h2 ih =>
    have hm : m = min d.2 i.2 := rfl
    rw [hm] at h1 h2
    rw [matchLoop_cons_cons]
    simp only [if_pos h1, if_pos h2, totalMoved, totalAmt, List.map_cons,
      List.sum_cons, List.length_cons]
    simp only [totalMoved, totalAmt] at ih
    have hbound := min_add_le_max_add_min d.2 i.2
      ((ds.map fun e => e.2).sum) ((is.map fun e => e.2).sum)
    have hmax : max d.2 i.2 < min d.2 i.2 + 1 / 100 :=
      max_lt (by linarith) (by linarith)
    push_cast
    linarith
  | case4 d ds i is m h1 h2 ih =>
    have hm : m = min d.2 i.2 := rfl
    rw [hm] at h1 h2 ih
    have hmd : min d.2 i.2 = d.2 := by
      rcases min_cases d.2 i.2 with ⟨h, _⟩ | ⟨h, _⟩
      · exact h
      · exfalso
        apply h2
        rw [h]
        norm_num
    rw [matchLoop_cons_cons]
    simp only [if_pos h1, if_neg h2, totalMoved, totalAmt, List.map_cons,
      List.sum_cons, List.length_cons]
    simp only [totalMoved, totalAmt, List.map_cons, List.sum_cons] at ih
    have hsplit : i.2 + (is.map fun e => e.2).sum =
        d.2 + ((i.2 - min d.2 i.2) + (is.map fun e => e.2).sum) := by
      rw [hmd]
      ring
    rw [hsplit]
    have hgoal : min (d.2 + (ds.map fun e => e.2).sum)
        (d.2 + ((i.2 - min d.2 i.2) + (is.map fun e => e.2).sum)) =
        d.2 + min ((ds.map fun e => e.2).sum)
          ((i.2 - min d.2 i.2) + (is.map fun e => e.2).sum) :=
      min_add_add_left _ _ _
    rw [hgoal, hmd]
    rw [hmd] at ih
    simp only [List.length_cons] at ih
    push_cast at ih
    push_cast
    linarith
  | case5 d ds i is m h1 ih =>
    have hm : m = min d.2 i.2 := rfl
    rw [hm] at h1 ih
    have hmi : min d.2 i.2 = i.2 := by
      rcases min_cases d.2 i.2 with ⟨h, _⟩ | ⟨h, _⟩
      · exfalso
        apply h1
        rw [h]
        norm_num
      · exact h
    rw [matchLoop_cons_cons]
    simp only [if_neg h1, totalMoved, totalAmt, List.map_cons,
      List.sum_cons, List.length_cons]
    simp only [totalMoved, totalAmt, List.map_cons, List.sum_cons] at ih
    have hsplit : d.2 + (ds.map fun e => e.2).sum =
        i.2 + ((d.2 - min d.2 i.2) + (ds.map fun e => e.2).sum) := by
      rw [hmi]
      ring
    rw [hsplit]
    have hgoal : min (i.2 + ((d.2 - min d.2 i.2) + (ds.map fun e => e.2).sum))
        (i.2 + (is.map fun e => e.2).sum) =
        i.2 + min ((d.2 - min d.2 i.2) + (ds.map fun e => e.2).sum)
          ((is.map fun e => e.2).sum) :=
      min_add_add_left _ _ _
    rw [hgoal, hmi]
    rw [hmi] at ih
    simp only [List.length_cons] at ih
    push_cast at ih
    push_cast
    linarith

/-- When the matching loop stops, at least one of the two arrays has had
every entry either fully consumed or forgiven: all its final remainders
are below the 0.01 threshold. -/
lemma matchLoop_leftover (dec inc : List (String × ℚ)) :
    (∀ e ∈ (matchLoop dec inc).2.1, e.2 < 1 / 100) ∨
    (∀ e ∈ (matchLoop dec inc).2.2, e.2 < 1 / 100) := by
  induction dec, inc using matchLoop.induct with
  | case1 is =>
    left
    simp [matchLoop]
  | case2 d ds =>
    right
    simp [matchLoop]
  | case3 d ds i is m h1 h2 ih =>
    have hm : m = min d.2 i.2 := rfl
    rw [hm] at h1 h2
    rw [matchLoop_cons_cons]
    simp only [if_pos h1, if_pos h2]
    rcases ih with hL | hR
    · left
      intro e he
      rcases List.mem_cons.mp he with rfl | hmem
      · exact h1
      · exact hL e hmem
    · right
      intro e he
      rcases List.mem_cons.mp he with rfl | hmem
      · exact h2
      · exact hR e hmem
  | case4 d ds i is m h1 h2 ih =>
    have hm : m = min d.2 i.2 := rfl
    rw [hm] at h1 h2 ih
    rw [matchLoop_cons_cons]
    simp only [if_pos h1, if_neg h2]
    rcases ih with hL | hR
    · left
      intro e he
      rcases List.mem_cons.mp he with rfl | hmem
      · exact h1
      · exact hL e hmem
    · right
      exact hR
  | case5 d ds i is m h1 ih =>
    have hm : m = min d.2 i.2 := rfl
    rw [hm] at h1 ih
    have hmi : min d.2 i.2 = i.2 := by
      rcases min_cases d.2 i.2 with ⟨h, _⟩ | ⟨h, _⟩
      · exfalso
        apply h1
        rw [h]
        norm_num
      · exact h
    rw [matchLoop_cons_cons]
    simp only [if_neg h1]
    rcases ih with hL | hR
    · left
      exact hL
    · right
      intro e he
      rcases List.mem_cons.mp he with rfl | hmem
      · simp only
        rw [hmi]
        norm_num
      · exact hR e hmem

/-- Claim C4, amended: over non-negative source and destination amounts
(as the diff step produces), the matching loop moves a total that is at
most min(total sources, total destinations) and falls short of it by less
than 0.01 for each source or destination entry (each pointer advance can
forgive a residual below the 0.01 threshold, so exact equality can fail); and at termination at least one side retains
only residuals below the threshold, so no source and destination that
both exceed the threshold are ever left unmatched. -/
theorem claim_C4_amended (dec inc : List (String × ℚ))
    (hd : ∀ e ∈ dec, 0 ≤ e.2) (hi : ∀ e ∈ inc, 0 ≤ e.2) :
    totalMoved (matchLoop dec inc).1 ≤
      min (totalAmt dec) (totalAmt inc) ∧
    min (totalAmt dec) (totalAmt inc) ≤
      totalMoved (matchLoop dec inc).1 +
        (1 / 100) * ((dec.length : ℚ) + (inc.length : ℚ)) ∧
    ((∀ e ∈ (matchLoop dec inc).2.1, e.2 < 1 / 100) ∨
     (∀ e ∈ (matchLoop dec inc).2.2, e.2 < 1 / 100)) :=
  ⟨le_min (matchLoop_moved_le dec inc hd hi).1
      (matchLoop_moved_le dec inc hd hi).2,
    matchLoop_min_le dec inc, matchLoop_leftover dec inc⟩

/-- Witness for claim C4 (amended) on sources [A: 1] and destinations
[B: 2]: 1 is moved, which is the smaller total, within the allowed slack,
and the source side retains only the residual 0. -/
theorem claim_C4_amended_witness :
    totalMoved (matchLoop [("A", 1)] [("B", 2)]).1 ≤
      min (totalAmt [("A", 1)]) (totalAmt [("B", 2)]) ∧
    min (totalAmt [("A", (1 : ℚ))]) (totalAmt [("B", 2)]) ≤
      totalMoved (matchLoop [("A", 1)] [("B", 2)]).1 +
        (1 / 100) * (([("A", (1 : ℚ))].length : ℚ) +
          ([("B", (2 : ℚ))].length : ℚ)) ∧
    ((∀ e ∈ (matchLoop [("A", 1)] [("B", 2)]).2.1, e.2 < 1 / 100) ∨
     (∀ e ∈ (matchLoop [("A", 1)] [("B", 2)]).2.2, e.2 < 1 / 100)) :=
  claim_C4_amended [("A", 1)] [("B", 2)]
    (by
      intro e he
      rw [List.mem_singleton] at he
      rw [he]
      norm_num)
    (by
      intro e he
      rw [List.mem_singleton] at he
      rw [he]
      norm_num)

end YieldRouter
